import Mathlib

/-!
Verification of the duplex data-movement pipeline and fault-diagnostic
subsystem of the stm32f469 USB-UART bridge firmware.

The Rust sources are shallowly embedded: mutable structures become explicit
state passing (a method `fn f(&mut self, ..) -> Result<T, E>` becomes a Lean
function returning `State × Except E T`), byte arrays become functions
`Nat → Nat`, and machine integers become `Nat` with explicit saturation or
wraparound where the source relies on it.
-/

/-! ## Build-time constants (src/config.rs) -/

def RING_BUFFER_LEN : Nat := 512

def DMA_BUFFER_LEN : Nat := 128

def DATA_PACKET_SIZE : Nat := 128

def MAX_MORSE_LENGTH : Nat := 100

/-! ## Error taxonomies (src/errors/errors.rs, payload-free enums) -/

inductive RingBufferError where
  | BufferOverflow
  | InsufficientSpace
  | BufferEmpty
deriving DecidableEq

inductive DmaError where
  | InitError
  | TransferError
  | RetryLimitExceeded
  | BufferOverflow
  | BufferUnderflow
  | WriteError
  | ReadError
deriving DecidableEq

inductive UsbError where
  | NotInitialized
  | ReadError
  | WriteError
  | BufferOverflow
  | InitError
  | PollError
deriving DecidableEq

inductive DeviceError where
  | UsbError
  | DmaError
  | BufferOverflow
  | Timeout
  | LedError
deriving DecidableEq

deriving instance DecidableEq for Except

/-! ## RingBuffer (src/data_structures/ring_buffer.rs)

The backing array `buffer: [u8; RING_BUFFER_LEN]` is embedded as a function
`Nat → Nat`; only indices below `RING_BUFFER_LEN` are ever read. -/

structure RingBuffer where
  buffer : Nat → Nat
  write_pos : Nat
  read_pos : Nat
  count : Nat

def RingBuffer.new : RingBuffer :=
  { buffer := fun _ => 0, write_pos := 0, read_pos := 0, count := 0 }

def RingBuffer.len (rb : RingBuffer) : Nat := rb.count

def RingBuffer.is_empty (rb : RingBuffer) : Bool := rb.count == 0

def RingBuffer.available_space (rb : RingBuffer) : Nat := RING_BUFFER_LEN - rb.count

def RingBuffer.clear (_rb : RingBuffer) : RingBuffer := RingBuffer.new

/-- Embedding of `slice[start..start + data.len()].copy_from_slice(data)`
on the backing array. -/
def copyFromSlice (buf : Nat → Nat) (start : Nat) (data : List Nat) : Nat → Nat :=
  fun i => if start ≤ i ∧ i < start + data.length then data.getD (i - start) 0 else buf i

/-- `RingBuffer::push`: rejects the whole slice on insufficient space, else
copies in at most two contiguous runs and advances `write_pos` mod the
capacity. Returns the state after the call together with the `Result`. -/
def RingBuffer.push (rb : RingBuffer) (data : List Nat) : RingBuffer × Except RingBufferError Unit :=
  let data_len := data.length
  if data_len > rb.available_space then
    (rb, .error .BufferOverflow)
  else
    let first_chunk_len := min data_len (RING_BUFFER_LEN - rb.write_pos)
    let second_chunk_len := data_len - first_chunk_len
    let buf1 := copyFromSlice rb.buffer rb.write_pos (data.take first_chunk_len)
    let buf2 := if second_chunk_len > 0 then copyFromSlice buf1 0 (data.drop first_chunk_len) else buf1
    ({ buffer := buf2
       write_pos := (rb.write_pos + data_len) % RING_BUFFER_LEN
       read_pos := rb.read_pos
       count := rb.count + data_len }, .ok ())

/-- `RingBuffer::pop`: the caller passes a slice of length `olen`; the bytes
written into it (`min olen count` of them, in FIFO order, up to two runs)
are returned as a list together with the state after the call. -/
def RingBuffer.pop (rb : RingBuffer) (olen : Nat) : List Nat × RingBuffer :=
  let to_read := min olen rb.count
  if to_read = 0 then
    ([], rb)
  else
    let first_chunk_len := min to_read (RING_BUFFER_LEN - rb.read_pos)
    let second_chunk_len := to_read - first_chunk_len
    let out1 := (List.range first_chunk_len).map (fun i => rb.buffer (rb.read_pos + i))
    let out2 := (List.range second_chunk_len).map (fun i => rb.buffer i)
    (out1 ++ out2,
     { rb with read_pos := (rb.read_pos + to_read) % RING_BUFFER_LEN
               count := rb.count - to_read })

/-- `RingBuffer::pop_n::<N>(count)`: caps the request at the stored count and
at the output capacity `N`, pops through a temporary buffer, and collects
into a `heapless::Vec<u8, N>` (which stays empty if the extend fails). -/
def RingBuffer.pop_n (rb : RingBuffer) (N : Nat) (count : Nat) : List Nat × RingBuffer :=
  let to_read := min (min count rb.count) N
  if to_read = 0 then
    ([], rb)
  else
    let res := rb.pop to_read
    if res.1.length ≤ N then res else ([], res.2)

/-- Abstraction: the FIFO content of the buffer, oldest byte first. -/
def RingBuffer.toList (rb : RingBuffer) : List Nat :=
  (List.range rb.count).map (fun i => rb.buffer ((rb.read_pos + i) % RING_BUFFER_LEN))

/-- Well-formedness invariant maintained by every operation: cursors are in
range and `write_pos` is derived from `read_pos` and `count`. -/
def RingBuffer.WF (rb : RingBuffer) : Prop :=
  rb.read_pos < RING_BUFFER_LEN ∧ rb.count ≤ RING_BUFFER_LEN ∧
    rb.write_pos = (rb.read_pos + rb.count) % RING_BUFFER_LEN

instance (rb : RingBuffer) : Decidable rb.WF := by
  unfold RingBuffer.WF; infer_instance

/-- The backing array produced by a non-overflowing `push` (the two-run copy),
named for use in the `push` lemmas. -/
def pushedBuffer (rb : RingBuffer) (data : List Nat) (i : Nat) : Nat :=
  if data.length - min data.length (RING_BUFFER_LEN - rb.write_pos) > 0 then
    copyFromSlice
      (copyFromSlice rb.buffer rb.write_pos
        (data.take (min data.length (RING_BUFFER_LEN - rb.write_pos)))) 0
      (data.drop (min data.length (RING_BUFFER_LEN - rb.write_pos))) i
  else
    copyFromSlice rb.buffer rb.write_pos
      (data.take (min data.length (RING_BUFFER_LEN - rb.write_pos))) i

/-! ### Operation sequences over a RingBuffer (for the FIFO property) -/

/-- A client-visible buffer operation: a `push` of a byte slice or a `pop`
into an output slice of the given length. -/
inductive RBOp where
  | push (data : List Nat)
  | pop (olen : Nat)

/-- One operation applied to a state with the bytes supplied to the push
(recorded whether or not it is admitted) and the bytes returned by the pop. -/
def applyOp (rb : RingBuffer) : RBOp → RingBuffer × List Nat × List Nat
  | RBOp.push data => ((rb.push data).1, data, [])
  | RBOp.pop olen => ((rb.pop olen).2, [], (rb.pop olen).1)

/-- Run a sequence of operations, concatenating the bytes supplied to pushes
and the bytes returned by pops. -/
def runOps (rb : RingBuffer) : List RBOp → RingBuffer × List Nat × List Nat
  | [] => (rb, [], [])
  | op :: rest =>
    let s := applyOp rb op
    let r := runOps s.1 rest
    (r.1, s.2.1 ++ r.2.1, s.2.2 ++ r.2.2)

/-- A run in which no push ever exceeds the available space. -/
def okRun (rb : RingBuffer) : List RBOp → Bool
  | [] => true
  | RBOp.push data :: rest =>
      decide (data.length ≤ rb.available_space) && okRun (rb.push data).1 rest
  | RBOp.pop olen :: rest => okRun (rb.pop olen).2 rest

/-! ## DMA2 handling (src/task_handlers/dma2.rs)

`retry_count: &mut u8` becomes an explicit `Nat` threaded in and out (the
counter is also returned on the error path, mirroring the mutation that has
already happened when `?` propagates). The hardware restart calls are
abstracted by a `Bool` telling whether `restart_dma_rx`/`restart_dma_tx`
succeeds. -/

def MAX_RETRY_COUNT : Nat := 3

/-- `handle_error_condition`: bump the counter (u8 saturating add), trip the
retry limit and reset to zero past `MAX_RETRY_COUNT`, otherwise clear the
fault flags and restart the transfer (`InitError` when the restart fails). -/
def handle_error_condition (retry_count : Nat) (restart_ok : Bool) :
    Nat × Except DmaError Unit :=
  let rc := min (retry_count + 1) 255
  if rc > MAX_RETRY_COUNT then
    (0, .error .RetryLimitExceeded)
  else if restart_ok then (rc, .ok ()) else (rc, .error .InitError)

/-- `handle_usart_error`: check the RX fault flag, then the TX fault flag,
running `handle_error_condition` on the same `retry_count` for each; `?`
propagates the first error. -/
def handle_usart_error (rx_error tx_error restart_rx_ok restart_tx_ok : Bool)
    (retry_count : Nat) : Nat × Except DmaError Unit :=
  let step1 :=
    if rx_error then handle_error_condition retry_count restart_rx_ok
    else (retry_count, .ok ())
  match step1 with
  | (rc1, .error e) => (rc1, .error e)
  | (rc1, .ok _) =>
    if tx_error then handle_error_condition rc1 restart_tx_ok
    else (rc1, .ok ())

/-- Modelled from the spec: the retry policy as §4.2 states it, with "each
direction tracks an independent consecutive-fault counter capped at 3" — an
RX counter and a TX counter, each advanced only by its own direction's
faults. The source (`src/main.rs` `Local`, `handle_usart_error`) instead
holds a single `retry_count`. -/
def handle_usart_error_spec (rx_error tx_error restart_rx_ok restart_tx_ok : Bool)
    (rx_retry_count tx_retry_count : Nat) : (Nat × Nat) × Except DmaError Unit :=
  let step1 :=
    if rx_error then handle_error_condition rx_retry_count restart_rx_ok
    else (rx_retry_count, .ok ())
  match step1 with
  | (rc1, .error e) => ((rc1, tx_retry_count), .error e)
  | (rc1, .ok _) =>
    if tx_error then
      match handle_error_condition tx_retry_count restart_tx_ok with
      | (rc2, res) => ((rc1, rc2), res)
    else ((rc1, tx_retry_count), .ok ())

/-- `prepare_tx_data`: guard (`bytes_processed > DMA_BUFFER_LEN ||
tx.len() < bytes_processed` fails `BufferUnderflow`), then pop the requested
bytes through `pop_n::<RING_BUFFER_LEN>` and copy them into the hardware
buffer slice that is handed to the DMA write. -/
def prepare_tx_data (tx : RingBuffer) (bytes_processed : Nat) :
    RingBuffer × Except DmaError (List Nat) :=
  if bytes_processed > DMA_BUFFER_LEN ∨ tx.len < bytes_processed then
    (tx, .error .BufferUnderflow)
  else
    let res := tx.pop_n RING_BUFFER_LEN bytes_processed
    (res.2, .ok res.1)

/-! ## USB OTG FS bridge (src/task_handlers/otg_fs.rs)

The endpoint write `usb.write(&buf)` is abstracted by a function from the
offered bytes to `Except UsbError Nat` (the count the endpoint accepted). -/

/-- `process_rx_buffer`: drain up to one `DATA_PACKET_SIZE` staging buffer
from the RX ring, write it to the endpoint, and on a short write push the
unsent tail back onto the ring; returns the bytes the endpoint accepted. -/
def process_rx_buffer (usbWrite : List Nat → Except UsbError Nat) (rx : RingBuffer) :
    RingBuffer × Except DeviceError Nat :=
  if rx.is_empty then
    (rx, .ok 0)
  else
    let res := rx.pop DATA_PACKET_SIZE
    match usbWrite res.1 with
    | .ok written =>
      if written < res.1.length then
        let res2 := res.2.push (res.1.drop written)
        match res2.2 with
        | .ok _ => (res2.1, .ok written)
        | .error _ => (res2.1, .error .UsbError)
      else (res.2, .ok written)
    | .error _ => (res.2, .error .UsbError)

/-- `handle_usb` / `process_usb_data`: reject a whole packet that does not
fit (`available_space < count`), otherwise push it; `read` is abstracted by
its `Result<Option<(data, count)>>` value. -/
def process_usb_data (readResult : Except UsbError (Option (List Nat)))
    (tx : RingBuffer) : RingBuffer × Except DeviceError Nat :=
  match readResult with
  | .ok (some data) =>
    if tx.available_space < data.length then
      (tx, .error .UsbError)
    else
      let res := tx.push data
      match res.2 with
      | .ok _ => (res.1, .ok data.length)
      | .error _ => (res.1, .error .UsbError)
  | .ok none => (tx, .ok 0)
  | .error _ => (tx, .error .UsbError)

/-! ## Morse encoder (src/utils/morse.rs)

Bytes written through `BufferWriter` are modelled as `Char`s; the writer
records its destination capacity and the bytes written so far (its `index`
is the length of that list). -/

/-- `digit_to_morse`: fixed five-symbol pattern per decimal digit. The
source's `unreachable!()` arm (hit only for digits ≥ 10, which
`(number / divisor) % 10` never produces) is embedded as the empty string. -/
def digit_to_morse (digit : Nat) : List Char :=
  match digit with
  | 0 => "-----".toList
  | 1 => ".----".toList
  | 2 => "..---".toList
  | 3 => "...--".toList
  | 4 => "....-".toList
  | 5 => ".....".toList
  | 6 => "-....".toList
  | 7 => "--...".toList
  | 8 => "---..".toList
  | 9 => "----.".toList
  | _ => []

structure BufferWriter where
  capacity : Nat
  written : List Char

/-- `BufferWriter::write_byte`: fails once the index reaches the buffer
length. -/
def BufferWriter.write_byte (w : BufferWriter) (b : Char) : Except String BufferWriter :=
  if w.written.length ≥ w.capacity then
    .error "Buffer overflow"
  else
    .ok { w with written := w.written ++ [b] }

/-- `BufferWriter::write_str`: write each byte in turn, propagating failure. -/
def BufferWriter.write_str (w : BufferWriter) (s : List Char) : Except String BufferWriter :=
  match s with
  | [] => .ok w
  | b :: rest =>
    match w.write_byte b with
    | .ok w1 => w1.write_str rest
    | .error e => .error e

/-- The divisors the `while divisor > 0 { .. divisor /= 10 }` loop of
`number_to_morse` visits, starting from 10000. -/
def morse_divisors : List Nat := [10000, 1000, 100, 10, 1]

/-- The loop body of `number_to_morse`: emit a digit unless it is a leading
zero, with a single space before every digit but the first. -/
def morse_loop (number : Nat) : List Nat → Bool → BufferWriter → Except String BufferWriter
  | [], _, w => .ok w
  | divisor :: rest, first, w =>
    let digit := (number / divisor) % 10
    if digit ≠ 0 ∨ first = false ∨ divisor = 1 then
      match (if first = false then w.write_byte ' ' else .ok w) with
      | .error e => .error e
      | .ok w1 =>
        match w1.write_str (digit_to_morse digit) with
        | .error e => .error e
        | .ok w2 => morse_loop number rest false w2
    else
      morse_loop number rest first w

/-- `number_to_morse`: returns the bytes written into the destination buffer
(the source returns the index, i.e. their count, and leaves them in the
caller's buffer). -/
def number_to_morse (number : Nat) (buffer_len : Nat) : Except String (List Char) :=
  match morse_loop number morse_divisors true { capacity := buffer_len, written := [] } with
  | .ok w => .ok w.written
  | .error e => .error e

/-! ## Red LED Morse annunciator
(src/task_handlers/red_led_handler.rs, src/peripherals/red_led.rs)

The PD5 pin is a `Bool` (`ledOn = true` means `set_low`, the LED lit). The
`Option<[u8; MAX_MORSE_LENGTH]>` sequence is an `Option (List Char)` of
length `MAX_MORSE_LENGTH`, zero-padded past `morse_length` as the source's
array is. The global fault queue is threaded as a `List Nat` of codes. -/

def MORSE_DOT_DURATION : Nat := 200

def MORSE_DASH_DURATION : Nat := MORSE_DOT_DURATION * 3

def MORSE_SYMBOL_PAUSE : Nat := MORSE_DOT_DURATION

def MORSE_WORD_PAUSE : Nat := MORSE_DOT_DURATION * 7

inductive MorseState where
  | Idle
  | Signal
  | Pause
deriving DecidableEq

structure RedLed where
  ledOn : Bool
  morse_sequence : Option (List Char)
  morse_length : Nat
  morse_index : Nat
  morse_state : MorseState
  last_toggle : Nat

/-- `RedLed::current_symbol`. -/
def RedLed.current_symbol (led : RedLed) : Option Char :=
  led.morse_sequence.bind (fun seq => seq.get? led.morse_index)

/-- `RedLed::reset_morse_state`. -/
def RedLed.reset_morse_state (led : RedLed) : RedLed :=
  { led with morse_sequence := none, morse_length := 0, morse_index := 0,
             morse_state := .Idle, last_toggle := 0 }

/-- `RedLed::start_morse_sequence`: encode the code, reject over-long
sequences, and load the zero-padded sequence at index 0 in `Idle`. -/
def RedLed.start_morse_sequence (led : RedLed) (code : Nat) (buffer_len : Nat) :
    RedLed × Except String Unit :=
  match number_to_morse code buffer_len with
  | .error _ => (led, .error "Conversion failed")
  | .ok out =>
    if out.length > MAX_MORSE_LENGTH then
      (led, .error "Sequence too long")
    else
      ({ led with
          morse_sequence :=
            some (out ++ List.replicate (MAX_MORSE_LENGTH - out.length) (Char.ofNat 0))
          morse_length := out.length
          morse_index := 0
          morse_state := .Idle
          last_toggle := 0 }, .ok ())

/-- `calculate_elapsed`: u32 wrapping subtraction. -/
def calculate_elapsed (current last : Nat) : Nat :=
  (current + 2 ^ 32 - last) % 2 ^ 32

def activate_led (led : RedLed) (timestamp : Nat) : RedLed :=
  { led with ledOn := true, morse_state := .Signal, last_toggle := timestamp }

def deactivate_led (led : RedLed) : RedLed :=
  { led with ledOn := false, morse_state := .Pause }

def advance_sequence (led : RedLed) (timestamp : Nat) : RedLed :=
  { led with morse_index := led.morse_index + 1, morse_state := .Idle,
             last_toggle := timestamp }

def start_pause (led : RedLed) (timestamp : Nat) : RedLed :=
  { led with morse_state := .Pause, last_toggle := timestamp }

def handle_invalid_symbol (led : RedLed) : RedLed :=
  led.reset_morse_state

/-- `process_idle_state`: discard a finished sequence, else start the
current symbol (or reset on an invalid one). -/
def process_idle_state (led : RedLed) (current_time : Nat) : RedLed :=
  if led.morse_index ≥ led.morse_length then
    led.reset_morse_state
  else
    match led.current_symbol with
    | some c =>
      if c = '.' ∨ c = '-' then activate_led led current_time
      else if c = ' ' then start_pause led current_time
      else handle_invalid_symbol led
    | none => led

/-- `process_signal_state`: keep the LED lit for the symbol's duration
(`Some('.')` → dot, `Some('-')` → dash, anything else → defensive reset). -/
def process_signal_state (led : RedLed) (elapsed : Nat) : RedLed :=
  match led.current_symbol with
  | some c =>
    if c = '.' then (if elapsed ≥ MORSE_DOT_DURATION then deactivate_led led else led)
    else if c = '-' then (if elapsed ≥ MORSE_DASH_DURATION then deactivate_led led else led)
    else led.reset_morse_state
  | none => led.reset_morse_state

/-- `process_pause_state`: hold the pause (`Some('.') | Some('-')` → symbol
pause, `Some(' ')` → word pause, anything else → defensive reset), then
advance to the next symbol. -/
def process_pause_state (led : RedLed) (elapsed current_time : Nat) : RedLed :=
  match led.current_symbol with
  | some c =>
    if c = '.' ∨ c = '-' then
      (if elapsed ≥ MORSE_SYMBOL_PAUSE then advance_sequence led current_time else led)
    else if c = ' ' then
      (if elapsed ≥ MORSE_WORD_PAUSE then advance_sequence led current_time else led)
    else led.reset_morse_state
  | none => led.reset_morse_state

def handle_active_sequence (led : RedLed) (current_time : Nat) : RedLed :=
  let elapsed := calculate_elapsed current_time led.last_toggle
  match led.morse_state with
  | .Idle => process_idle_state led current_time
  | .Signal => process_signal_state led elapsed
  | .Pause => process_pause_state led elapsed current_time

/-- `get_first_error_code` on the explicit queue state. -/
def get_first_error_code (q : List Nat) : Option Nat × List Nat :=
  match q with
  | [] => (none, [])
  | c :: rest => (some c, rest)

/-- `start_new_sequence`: dequeue the next code (if any) and try to load it;
a load failure is only logged. -/
def start_new_sequence (led : RedLed) (q : List Nat) (buffer_len : Nat) :
    RedLed × List Nat :=
  match get_first_error_code q with
  | (some code, q1) => ((led.start_morse_sequence code buffer_len).1, q1)
  | (none, q1) => (led, q1)

/-- `update_red_led`: one tick of the annunciator state machine, also
threading the fault-code queue it dequeues from. -/
def update_red_led (led : RedLed) (q : List Nat) (current_time buffer_len : Nat) :
    RedLed × List Nat :=
  match led.morse_sequence with
  | some _ => (handle_active_sequence led current_time, q)
  | none => start_new_sequence led q buffer_len

/-- The symbols each state accepts without the defensive reset
(`process_idle_state` / `process_signal_state` / `process_pause_state`):
anything else at the current index is an invalid symbol for that state. -/
def RedLed.invalid_symbol_hit (led : RedLed) : Prop :=
  match led.morse_state with
  | .Idle => ∃ c, led.current_symbol = some c ∧ c ≠ '.' ∧ c ≠ '-' ∧ c ≠ ' '
  | .Signal => led.current_symbol ≠ some '.' ∧ led.current_symbol ≠ some '-'
  | .Pause => led.current_symbol ≠ some '.' ∧ led.current_symbol ≠ some '-' ∧
      led.current_symbol ≠ some ' '

theorem RingBuffer.new_WF : RingBuffer.new.WF := by decide

theorem RingBuffer.toList_new : RingBuffer.new.toList = [] := rfl

/-! ### Arithmetic helpers -/

theorem ring_buffer_len_pos : 0 < RING_BUFFER_LEN := by decide

/-- Shifting by `r` and reducing mod `C` is injective on `[0, C)`. -/
theorem mod_shift_inj {C r a b : Nat} (ha : a < C) (hb : b < C)
    (h : (r + a) % C = (r + b) % C) : a = b := by
  have h2 : r + a ≡ r + b [MOD C] := h
  have h3 : a ≡ b [MOD C] := Nat.ModEq.add_left_cancel' r h2
  have h4 : a % C = b % C := h3
  rwa [Nat.mod_eq_of_lt ha, Nat.mod_eq_of_lt hb] at h4

/-- Reading every position of a list through `getD` reproduces the list. -/
theorem getD_range_map (l : List Nat) (d : Nat) :
    (List.range l.length).map (fun i => l.getD i d) = l := by
  induction l with
  | nil => rfl
  | cons a t ih =>
    rw [List.length_cons, List.range_succ_eq_map, List.map_cons, List.map_map]
    have h0 : (a :: t).getD 0 d = a := rfl
    rw [h0]
    have hstep : ((fun i => (a :: t).getD i d) ∘ Nat.succ) = fun i => t.getD i d := by
      funext i; rfl
    rw [hstep, ih]

theorem getD_take_of_lt (l : List Nat) (n i d : Nat) (h : i < n) :
    (l.take n).getD i d = l.getD i d := by
  simp [List.getD, List.getElem?_take, h]

theorem getD_drop (l : List Nat) (n i d : Nat) :
    (l.drop n).getD i d = l.getD (n + i) d := by
  simp [List.getD, List.getElem?_drop]

/-! ### `pop` characterization -/

theorem RingBuffer.pop_count (rb : RingBuffer) (olen : Nat) :
    (rb.pop olen).2.count = rb.count - min olen rb.count := by
  unfold RingBuffer.pop
  by_cases hk : min olen rb.count = 0 <;> simp [hk]

theorem RingBuffer.pop_buffer (rb : RingBuffer) (olen : Nat) :
    (rb.pop olen).2.buffer = rb.buffer := by
  unfold RingBuffer.pop
  by_cases hk : min olen rb.count = 0 <;> simp [hk]

theorem RingBuffer.pop_write_pos (rb : RingBuffer) (olen : Nat) :
    (rb.pop olen).2.write_pos = rb.write_pos := by
  unfold RingBuffer.pop
  by_cases hk : min olen rb.count = 0 <;> simp [hk]

theorem RingBuffer.pop_read_pos (rb : RingBuffer) (olen : Nat) (hwf : rb.WF) :
    (rb.pop olen).2.read_pos = (rb.read_pos + min olen rb.count) % RING_BUFFER_LEN := by
  obtain ⟨hr, -, -⟩ := hwf
  unfold RingBuffer.pop
  by_cases hk : min olen rb.count = 0 <;> simp [hk, Nat.mod_eq_of_lt hr]

theorem RingBuffer.pop_length (rb : RingBuffer) (olen : Nat) :
    (rb.pop olen).1.length = min olen rb.count := by
  unfold RingBuffer.pop
  by_cases hk : min olen rb.count = 0 <;> simp [hk]

theorem RingBuffer.pop_fst (rb : RingBuffer) (olen : Nat) (hwf : rb.WF) :
    (rb.pop olen).1 = rb.toList.take (min olen rb.count) := by
  obtain ⟨hr, hc, -⟩ := hwf
  unfold RingBuffer.pop RingBuffer.toList
  set C := RING_BUFFER_LEN with hC
  set k := min olen rb.count with hk
  have hkc : k ≤ rb.count := Nat.min_le_right _ _
  by_cases hk0 : k = 0
  · simp [hk0]
  · simp only [if_neg hk0]
    set fst := min k (C - rb.read_pos) with hfst
    have hfk : fst ≤ k := Nat.min_le_left _ _
    have hsplit : fst + (k - fst) = k := Nat.add_sub_cancel' hfk
    have hrk : List.range k = List.range fst ++ (List.range (k - fst)).map (fst + ·) := by
      conv_lhs => rw [← hsplit]
      rw [List.range_add]
    rw [← List.map_take, List.take_range, Nat.min_eq_left hkc, hrk, List.map_append,
      List.map_map]
    congr 1
    · refine List.map_congr_left (fun i hi => ?_)
      rw [List.mem_range] at hi
      have : rb.read_pos + i < C := by
        have : fst ≤ C - rb.read_pos := Nat.min_le_right _ _
        omega
      rw [Nat.mod_eq_of_lt this]
    · rcases Nat.eq_zero_or_pos (k - fst) with h2 | h2
      · simp [h2]
      · have hfeq : fst = C - rb.read_pos := by
          rw [hfst, Nat.min_def]; split <;> omega
        refine List.map_congr_left (fun i hi => ?_)
        rw [List.mem_range] at hi
        have hkC : k ≤ C := le_trans hkc hc
        have hiC : i < C := by omega
        simp only [Function.comp]
        have : rb.read_pos + (fst + i) = C + i := by omega
        rw [this, Nat.add_mod_left, Nat.mod_eq_of_lt hiC]

theorem RingBuffer.pop_toList (rb : RingBuffer) (olen : Nat) (hwf : rb.WF) :
    (rb.pop olen).2.toList = rb.toList.drop (min olen rb.count) := by
  obtain ⟨hr, hc, -⟩ := hwf
  unfold RingBuffer.pop RingBuffer.toList
  set C := RING_BUFFER_LEN with hC
  set k := min olen rb.count with hk
  have hkc : k ≤ rb.count := Nat.min_le_right _ _
  by_cases hk0 : k = 0
  · simp [hk0]
  · simp only [if_neg hk0]
    have hsplit : k + (rb.count - k) = rb.count := Nat.add_sub_cancel' hkc
    have hrc : List.range rb.count = List.range k ++ (List.range (rb.count - k)).map (k + ·) := by
      conv_lhs => rw [← hsplit]
      rw [List.range_add]
    rw [← List.map_drop, hrc, List.drop_left' (List.length_range k), List.map_map]
    refine List.map_congr_left (fun i hi => ?_)
    simp only [Function.comp]
    rw [Nat.mod_add_mod, Nat.add_assoc]

/-! ### `push` characterization -/

theorem copyFromSlice_of_mem (buf : Nat → Nat) (start : Nat) (data : List Nat) (i : Nat)
    (h : start ≤ i ∧ i < start + data.length) :
    copyFromSlice buf start data i = data.getD (i - start) 0 := by
  unfold copyFromSlice
  rw [if_pos h]

theorem copyFromSlice_of_not_mem (buf : Nat → Nat) (start : Nat) (data : List Nat) (i : Nat)
    (h : ¬(start ≤ i ∧ i < start + data.length)) :
    copyFromSlice buf start data i = buf i := by
  unfold copyFromSlice
  rw [if_neg h]

theorem RingBuffer.push_of_overflow (rb : RingBuffer) (data : List Nat)
    (h : data.length > rb.available_space) :
    rb.push data = (rb, .error .BufferOverflow) := by
  unfold RingBuffer.push
  simp [h]

theorem RingBuffer.push_ok (rb : RingBuffer) (data : List Nat)
    (h : data.length ≤ rb.available_space) :
    (rb.push data).2 = .ok () ∧
      (rb.push data).1.write_pos = (rb.write_pos + data.length) % RING_BUFFER_LEN ∧
      (rb.push data).1.read_pos = rb.read_pos ∧
      (rb.push data).1.count = rb.count + data.length := by
  unfold RingBuffer.push
  simp [Nat.not_lt.mpr h]

theorem RingBuffer.push_buffer_eq (rb : RingBuffer) (data : List Nat)
    (h : data.length ≤ rb.available_space) :
    (rb.push data).1.buffer = pushedBuffer rb data := by
  funext i
  unfold RingBuffer.push pushedBuffer
  by_cases hs : data.length - min data.length (RING_BUFFER_LEN - rb.write_pos) > 0 <;>
    simp [Nat.not_lt.mpr h, hs]

theorem pushedBuffer_old (rb : RingBuffer) (data : List Nat) (p : Nat)
    (h1 : ¬(rb.write_pos ≤ p ∧
      p < rb.write_pos + min data.length (RING_BUFFER_LEN - rb.write_pos)))
    (h2 : ¬(p < data.length - min data.length (RING_BUFFER_LEN - rb.write_pos))) :
    pushedBuffer rb data p = rb.buffer p := by
  unfold pushedBuffer
  set fst := min data.length (RING_BUFFER_LEN - rb.write_pos) with hfst
  have hfd : fst ≤ data.length := Nat.min_le_left _ _
  have hbuf1 : copyFromSlice rb.buffer rb.write_pos (data.take fst) p = rb.buffer p := by
    refine copyFromSlice_of_not_mem _ _ _ _ ?_
    rw [List.length_take, Nat.min_eq_left hfd]
    exact h1
  by_cases hs : data.length - fst > 0
  · rw [if_pos hs, copyFromSlice_of_not_mem _ _ _ _ (by rw [List.length_drop]; omega)]
    exact hbuf1
  · rw [if_neg hs]
    exact hbuf1

theorem pushedBuffer_new (rb : RingBuffer) (data : List Nat)
    (hwC : rb.write_pos < RING_BUFFER_LEN) (hdC : data.length ≤ RING_BUFFER_LEN) :
    ∀ j, j < data.length →
      pushedBuffer rb data ((rb.write_pos + j) % RING_BUFFER_LEN) = data.getD j 0 := by
  intro j hj
  unfold pushedBuffer
  set fst := min data.length (RING_BUFFER_LEN - rb.write_pos) with hfst
  have hfd : fst ≤ data.length := Nat.min_le_left _ _
  have hfw : fst ≤ RING_BUFFER_LEN - rb.write_pos := Nat.min_le_right _ _
  by_cases hjf : j < fst
  · have hlt : rb.write_pos + j < RING_BUFFER_LEN := by omega
    rw [Nat.mod_eq_of_lt hlt]
    have hbuf1 : copyFromSlice rb.buffer rb.write_pos (data.take fst) (rb.write_pos + j) =
        data.getD j 0 := by
      rw [copyFromSlice_of_mem _ _ _ _
        ⟨by omega, by rw [List.length_take, Nat.min_eq_left hfd]; omega⟩]
      rw [Nat.add_sub_cancel_left, getD_take_of_lt _ _ _ _ hjf]
    by_cases hs : data.length - fst > 0
    · have hfeq : fst = RING_BUFFER_LEN - rb.write_pos := by
        rw [hfst, Nat.min_def]; split <;> omega
      rw [if_pos hs, copyFromSlice_of_not_mem _ _ _ _ (by rw [List.length_drop]; omega)]
      exact hbuf1
    · rw [if_neg hs]
      exact hbuf1
  · have hs : data.length - fst > 0 := by omega
    have hfeq : fst = RING_BUFFER_LEN - rb.write_pos := by
      rw [hfst, Nat.min_def]; split <;> omega
    have hjC : rb.write_pos + j = RING_BUFFER_LEN + (j - fst) := by omega
    have hjlt : j - fst < RING_BUFFER_LEN := by omega
    rw [hjC, Nat.add_mod_left, Nat.mod_eq_of_lt hjlt]
    rw [if_pos hs, copyFromSlice_of_mem _ _ _ _
      ⟨Nat.zero_le _, by rw [List.length_drop]; omega⟩]
    rw [Nat.sub_zero, getD_drop]
    congr 1
    omega

theorem RingBuffer.push_toList (rb : RingBuffer) (data : List Nat) (hwf : rb.WF)
    (h : data.length ≤ rb.available_space) :
    (rb.push data).1.toList = rb.toList ++ data := by
  obtain ⟨hr, hc, hw⟩ := hwf
  have havail : data.length ≤ RING_BUFFER_LEN - rb.count := h
  have hwC : rb.write_pos < RING_BUFFER_LEN := by
    rw [hw]; exact Nat.mod_lt _ ring_buffer_len_pos
  have hdC : data.length ≤ RING_BUFFER_LEN := by omega
  have hshift : ∀ j, (rb.write_pos + j) % RING_BUFFER_LEN =
      (rb.read_pos + (rb.count + j)) % RING_BUFFER_LEN := by
    intro j
    rw [hw, Nat.mod_add_mod, Nat.add_assoc]
  obtain ⟨-, hwrite, hread, hcount⟩ := RingBuffer.push_ok rb data h
  unfold RingBuffer.toList
  rw [hcount, hread, RingBuffer.push_buffer_eq rb data h, List.range_add, List.map_append,
    List.map_map]
  congr 1
  · refine List.map_congr_left (fun i hi => ?_)
    rw [List.mem_range] at hi
    set p := (rb.read_pos + i) % RING_BUFFER_LEN with hp
    have hpC : p < RING_BUFFER_LEN := Nat.mod_lt _ ring_buffer_len_pos
    have hfw : min data.length (RING_BUFFER_LEN - rb.write_pos) ≤
        RING_BUFFER_LEN - rb.write_pos := Nat.min_le_right _ _
    have hfd : min data.length (RING_BUFFER_LEN - rb.write_pos) ≤ data.length :=
      Nat.min_le_left _ _
    refine pushedBuffer_old rb data p ?_ ?_
    · rintro ⟨hp1, hp2⟩
      set fst := min data.length (RING_BUFFER_LEN - rb.write_pos) with hfst
      have hj : p - rb.write_pos < fst := by omega
      have hpj : p = (rb.write_pos + (p - rb.write_pos)) % RING_BUFFER_LEN := by
        rw [Nat.mod_eq_of_lt (by omega)]
        omega
      rw [hshift (p - rb.write_pos)] at hpj
      have := mod_shift_inj (C := RING_BUFFER_LEN) (r := rb.read_pos)
        (a := i) (b := rb.count + (p - rb.write_pos)) (by omega) (by omega) hpj
      omega
    · intro hp2
      set fst := min data.length (RING_BUFFER_LEN - rb.write_pos) with hfst
      have hs : 0 < data.length - fst := by omega
      have hfeq : fst = RING_BUFFER_LEN - rb.write_pos := by
        rw [hfst, Nat.min_def]; split <;> omega
      have hpj : p = (rb.write_pos + (fst + p)) % RING_BUFFER_LEN := by
        have : rb.write_pos + (fst + p) = RING_BUFFER_LEN + p := by omega
        rw [this, Nat.add_mod_left, Nat.mod_eq_of_lt hpC]
      rw [hshift (fst + p)] at hpj
      have := mod_shift_inj (C := RING_BUFFER_LEN) (r := rb.read_pos)
        (a := i) (b := rb.count + (fst + p)) (by omega) (by omega) hpj
      omega
  · have hpt : ∀ j ∈ List.range data.length,
        ((fun i => pushedBuffer rb data ((rb.read_pos + i) % RING_BUFFER_LEN)) ∘
          (fun x => rb.count + x)) j = (fun j => data.getD j 0) j := by
      intro j hj
      rw [List.mem_range] at hj
      simp only [Function.comp]
      rw [← hshift j, pushedBuffer_new rb data hwC hdC j hj]
    rw [List.map_congr_left hpt, getD_range_map]

theorem RingBuffer.push_WF (rb : RingBuffer) (data : List Nat) (hwf : rb.WF)
    (h : data.length ≤ rb.available_space) :
    (rb.push data).1.WF := by
  obtain ⟨hr, hc, hw⟩ := hwf
  have havail : data.length ≤ RING_BUFFER_LEN - rb.count := h
  obtain ⟨-, hwrite, hread, hcount⟩ := RingBuffer.push_ok rb data h
  refine ⟨?_, ?_, ?_⟩
  · rw [hread]; exact hr
  · rw [hcount]; omega
  · rw [hwrite, hread, hcount, hw, Nat.mod_add_mod, Nat.add_assoc]

theorem RingBuffer.pop_WF (rb : RingBuffer) (olen : Nat) (hwf : rb.WF) :
    (rb.pop olen).2.WF := by
  obtain ⟨hr, hc, hw⟩ := hwf
  refine ⟨?_, ?_, ?_⟩
  · rw [RingBuffer.pop_read_pos rb olen ⟨hr, hc, hw⟩]
    exact Nat.mod_lt _ ring_buffer_len_pos
  · rw [RingBuffer.pop_count]
    omega
  · rw [RingBuffer.pop_read_pos rb olen ⟨hr, hc, hw⟩, RingBuffer.pop_count,
      RingBuffer.pop_write_pos, Nat.mod_add_mod, hw]
    congr 1
    have : min olen rb.count ≤ rb.count := Nat.min_le_right _ _
    omega

/-! ### `pop_n` characterization -/

theorem RingBuffer.pop_n_length (rb : RingBuffer) (N count : Nat) :
    (rb.pop_n N count).1.length = min (min count rb.count) N ∧
      (rb.pop_n N count).2.count = rb.count - min (min count rb.count) N := by
  unfold RingBuffer.pop_n
  by_cases hk0 : min (min count rb.count) N = 0
  · simp [hk0]
  · simp only [if_neg hk0]
    have h1 := rb.pop_length (min (min count rb.count) N)
    have h2 := rb.pop_count (min (min count rb.count) N)
    rw [if_pos (by rw [h1]; omega)]
    exact ⟨by rw [h1]; omega, by rw [h2]; omega⟩

theorem RingBuffer.pop_n_toList (rb : RingBuffer) (N count : Nat) (hwf : rb.WF) :
    (rb.pop_n N count).1 = rb.toList.take (min (min count rb.count) N) ∧
      (rb.pop_n N count).2.toList = rb.toList.drop (min (min count rb.count) N) := by
  unfold RingBuffer.pop_n
  by_cases hk0 : min (min count rb.count) N = 0
  · simp [hk0]
  · simp only [if_neg hk0]
    have h1 := rb.pop_length (min (min count rb.count) N)
    rw [if_pos (by rw [h1]; omega)]
    have h2 := rb.pop_fst (min (min count rb.count) N) hwf
    have h3 := rb.pop_toList (min (min count rb.count) N) hwf
    rw [h2, h3]
    have : min (min (min count rb.count) N) rb.count = min (min count rb.count) N := by
      omega
    rw [this]
    exact ⟨rfl, rfl⟩

theorem RingBuffer.pop_n_WF (rb : RingBuffer) (N count : Nat) (hwf : rb.WF) :
    (rb.pop_n N count).2.WF := by
  unfold RingBuffer.pop_n
  by_cases hk0 : min (min count rb.count) N = 0
  · simpa [hk0] using hwf
  · simp only [if_neg hk0]
    have h1 := rb.pop_length (min (min count rb.count) N)
    rw [if_pos (by rw [h1]; omega)]
    exact rb.pop_WF _ hwf

/-! ## Claim theorems -/

/-- C5: for every well-formed ring buffer and input slice, pushing more
bytes than `available_space` fails with `BufferOverflow` and leaves the
whole state (stored bytes, `write_pos`, `read_pos`, `count`) unchanged,
while any push that fits is admitted whole, appending the bytes, advancing
`write_pos` modulo the capacity and growing `count` by the slice length. -/
theorem push_all_or_nothing (rb : RingBuffer) (data : List Nat) (hwf : rb.WF) :
    (data.length > rb.available_space →
      rb.push data = (rb, .error .BufferOverflow)) ∧
    (data.length ≤ rb.available_space →
      (rb.push data).2 = .ok () ∧
      (rb.push data).1.toList = rb.toList ++ data ∧
      (rb.push data).1.write_pos = (rb.write_pos + data.length) % RING_BUFFER_LEN ∧
      (rb.push data).1.read_pos = rb.read_pos ∧
      (rb.push data).1.count = rb.count + data.length) := by
  constructor
  · exact RingBuffer.push_of_overflow rb data
  · intro h
    obtain ⟨h1, h2, h3, h4⟩ := RingBuffer.push_ok rb data h
    exact ⟨h1, RingBuffer.push_toList rb data hwf h, h2, h3, h4⟩

/-- Witness for C5 at a concrete state: a 600-byte push into the fresh
512-byte buffer overflows and changes nothing; a 3-byte push is admitted. -/
theorem push_all_or_nothing_witness :
    (RingBuffer.new.WF ∧
      ((List.replicate 600 (7 : Nat)).length > RingBuffer.new.available_space →
        RingBuffer.new.push (List.replicate 600 7) =
          (RingBuffer.new, .error .BufferOverflow))) ∧
    (RingBuffer.new.WF ∧
      ((List.cons 1 [2, 3] : List Nat).length ≤ RingBuffer.new.available_space →
        (RingBuffer.new.push [1, 2, 3]).2 = .ok () ∧
        (RingBuffer.new.push [1, 2, 3]).1.toList = RingBuffer.new.toList ++ [1, 2, 3] ∧
        (RingBuffer.new.push [1, 2, 3]).1.write_pos =
          (RingBuffer.new.write_pos + (List.cons 1 [2, 3] : List Nat).length) %
            RING_BUFFER_LEN ∧
        (RingBuffer.new.push [1, 2, 3]).1.read_pos = RingBuffer.new.read_pos ∧
        (RingBuffer.new.push [1, 2, 3]).1.count =
          RingBuffer.new.count + (List.cons 1 [2, 3] : List Nat).length)) :=
  ⟨⟨by decide, (push_all_or_nothing RingBuffer.new (List.replicate 600 7) (by decide)).1⟩,
   ⟨by decide, (push_all_or_nothing RingBuffer.new [1, 2, 3] (by decide)).2⟩⟩

/-- The run invariant behind the FIFO property: pushed bytes equal popped
bytes followed by what is still buffered. -/
theorem runOps_inv (ops : List RBOp) : ∀ rb : RingBuffer, rb.WF → okRun rb ops = true →
    rb.toList ++ (runOps rb ops).2.1 = (runOps rb ops).2.2 ++ (runOps rb ops).1.toList := by
  induction ops with
  | nil =>
    intro rb hwf hok
    simp [runOps]
  | cons op rest ih =>
    intro rb hwf hok
    cases op with
    | push data =>
      rw [okRun, Bool.and_eq_true, decide_eq_true_iff] at hok
      obtain ⟨hle, hok1⟩ := hok
      have h1 := RingBuffer.push_toList rb data hwf hle
      have h2 := RingBuffer.push_WF rb data hwf hle
      have iht := ih (rb.push data).1 h2 hok1
      simp only [runOps, applyOp, List.nil_append]
      rw [← List.append_assoc, ← h1]
      exact iht
    | pop olen =>
      rw [okRun] at hok
      have h1 := RingBuffer.pop_fst rb olen hwf
      have h2 := RingBuffer.pop_toList rb olen hwf
      have h3 := RingBuffer.pop_WF rb olen hwf
      have iht := ih (rb.pop olen).2 h3 hok
      simp only [runOps, applyOp, List.nil_append]
      rw [List.append_assoc, ← iht, h2, h1, ← List.append_assoc, List.take_append_drop]

/-- C6: for every sequence of pushes and pops starting from the fresh
buffer in which no push exceeds the available space, the concatenation of
the popped bytes is a prefix of the concatenation of the pushed bytes —
bytes come out exactly in push order, across wraparound. -/
theorem ring_buffer_fifo (ops : List RBOp) (h : okRun RingBuffer.new ops = true) :
    ∃ rest, (runOps RingBuffer.new ops).2.2 ++ rest = (runOps RingBuffer.new ops).2.1 := by
  have hinv := runOps_inv ops RingBuffer.new RingBuffer.new_WF h
  rw [RingBuffer.toList_new, List.nil_append] at hinv
  exact ⟨(runOps RingBuffer.new ops).1.toList, hinv.symm⟩

/-- Witness for C6 on a concrete interleaving with wraparound-free pushes
and a short pop. -/
theorem ring_buffer_fifo_witness :
    okRun RingBuffer.new
        [RBOp.push [1, 2, 3], RBOp.pop 2, RBOp.push [4, 5], RBOp.pop 10] = true ∧
    ∃ rest,
      (runOps RingBuffer.new
          [RBOp.push [1, 2, 3], RBOp.pop 2, RBOp.push [4, 5], RBOp.pop 10]).2.2 ++ rest =
        (runOps RingBuffer.new
          [RBOp.push [1, 2, 3], RBOp.pop 2, RBOp.push [4, 5], RBOp.pop 10]).2.1 :=
  ⟨by decide, ring_buffer_fifo _ (by decide)⟩

/-- C10: `pop_n::<N>(count)` returns exactly
`min count (min stored N)` bytes — the request is silently capped both at
the stored byte count and at the compile-time output capacity `N` — and
removes exactly that many bytes from the buffer. -/
theorem pop_n_caps_at_capacity (rb : RingBuffer) (N count : Nat) :
    (rb.pop_n N count).1.length = min (min count rb.count) N ∧
      (rb.pop_n N count).2.count = rb.count - min (min count rb.count) N :=
  rb.pop_n_length N count

set_option maxRecDepth 8000 in
/-- C2 counterexample: with 300 bytes buffered, a request for 200 bytes
exceeds only the hardware buffer size (200 > 128 but 200 ≤ 300), yet
`prepare_tx_data` fails with `BufferUnderflow` — refuting the claim that it
fails only when the request exceeds both bounds and succeeds when it
exceeds just one. -/
theorem prepare_tx_data_or_counterexample :
    (prepare_tx_data (RingBuffer.new.push (List.replicate 300 7)).1 200).2 =
      .error .BufferUnderflow ∧
    ¬(200 > DMA_BUFFER_LEN ∧ (RingBuffer.new.push (List.replicate 300 7)).1.len < 200) := by
  constructor
  · decide
  · decide

/-- C2 amended: `prepare_tx_data` fails with `BufferUnderflow` exactly when
the requested byte count exceeds the hardware DMA buffer size (128) OR
exceeds the bytes currently stored in the TX ring buffer (the guard is a
disjunction, not a conjunction); otherwise it succeeds, popping exactly the
requested bytes off the front of the buffer. -/
theorem prepare_tx_data_guard (tx : RingBuffer) (n : Nat) (hwf : tx.WF) :
    ((prepare_tx_data tx n).2 = .error .BufferUnderflow ↔
      DMA_BUFFER_LEN < n ∨ tx.len < n) ∧
    (n ≤ DMA_BUFFER_LEN → n ≤ tx.len →
      (prepare_tx_data tx n).2 = .ok (tx.toList.take n) ∧
      (prepare_tx_data tx n).1.toList = tx.toList.drop n ∧
      (prepare_tx_data tx n).1.count = tx.count - n) := by
  unfold prepare_tx_data
  by_cases h : n > DMA_BUFFER_LEN ∨ tx.len < n
  · rw [if_pos h]
    constructor
    · exact ⟨fun _ => h, fun _ => rfl⟩
    · intro h1 h2
      exfalso
      have h2a : n ≤ tx.count := h2
      rcases h with h | h
      · omega
      · have h3 : tx.count < n := h
        omega
  · rw [if_neg h]
    push_neg at h
    obtain ⟨hn, hlen⟩ := h
    have hcount : n ≤ tx.count := hlen
    have hdr : DMA_BUFFER_LEN ≤ RING_BUFFER_LEN := by decide
    have hmin : min (min n tx.count) RING_BUFFER_LEN = n := by omega
    obtain ⟨ht1, ht2⟩ := tx.pop_n_toList RING_BUFFER_LEN n hwf
    obtain ⟨-, hc2⟩ := tx.pop_n_length RING_BUFFER_LEN n
    rw [hmin] at ht1 ht2 hc2
    refine ⟨⟨fun hcontra => absurd hcontra (by simp), fun hor => absurd hor (by omega)⟩,
      fun _ _ => ⟨?_, ht2, hc2⟩⟩
    exact congrArg Except.ok ht1

set_option maxRecDepth 4000 in
/-- Witness for the amended C2 at a concrete state: requesting 30 of 50
buffered bytes succeeds and pops exactly those 30. -/
theorem prepare_tx_data_guard_witness :
    (RingBuffer.new.push (List.replicate 50 9)).1.WF ∧
    (((prepare_tx_data (RingBuffer.new.push (List.replicate 50 9)).1 30).2 =
        .error .BufferUnderflow ↔
      DMA_BUFFER_LEN < 30 ∨ (RingBuffer.new.push (List.replicate 50 9)).1.len < 30) ∧
     (30 ≤ DMA_BUFFER_LEN → 30 ≤ (RingBuffer.new.push (List.replicate 50 9)).1.len →
      (prepare_tx_data (RingBuffer.new.push (List.replicate 50 9)).1 30).2 =
        .ok ((RingBuffer.new.push (List.replicate 50 9)).1.toList.take 30) ∧
      (prepare_tx_data (RingBuffer.new.push (List.replicate 50 9)).1 30).1.toList =
        (RingBuffer.new.push (List.replicate 50 9)).1.toList.drop 30 ∧
      (prepare_tx_data (RingBuffer.new.push (List.replicate 50 9)).1 30).1.count =
        (RingBuffer.new.push (List.replicate 50 9)).1.count - 30)) :=
  ⟨by decide, prepare_tx_data_guard (RingBuffer.new.push (List.replicate 50 9)).1 30 (by decide)⟩

/-- C3 counterexample: three TX-direction faults (no RX fault anywhere)
drive the one `retry_count` from 0 to 3, and then the very first
RX-direction fault returns `RetryLimitExceeded` — while the spec's model
with per-direction counters (RX counter still 0) would succeed. Handling
faults on one direction does not leave "the other direction's counter"
unchanged, because there is only one counter. -/
theorem retry_counter_shared_counterexample :
    ((handle_usart_error false true true true 0).1 = 1 ∧
     (handle_usart_error false true true true 1).1 = 2 ∧
     (handle_usart_error false true true true 2).1 = 3 ∧
     (handle_usart_error true false true true 3).2 = .error .RetryLimitExceeded) ∧
    (handle_usart_error_spec true false true true 0 3).2 = .ok () := by
  decide

/-- C3 amended: the RX and TX DMA directions share one consecutive-fault
retry counter capped at 3 (the single `retry_count` local resource):
`handle_usart_error` applies the very same `handle_error_condition` update
to the same counter whichever direction faulted, so faults on one direction
consume the other direction's retry allowance. -/
theorem retry_counter_shared (rc : Nat) (restart_ok : Bool) :
    handle_usart_error true false restart_ok restart_ok rc =
      handle_error_condition rc restart_ok ∧
    handle_usart_error false true restart_ok restart_ok rc =
      handle_error_condition rc restart_ok := by
  constructor
  · unfold handle_usart_error
    rcases h : handle_error_condition rc restart_ok with ⟨rc1, res⟩
    cases res with
    | error e => simp [h]
    | ok u => cases u; simp [h]
  · unfold handle_usart_error
    rcases h : handle_error_condition rc restart_ok with ⟨rc1, res⟩
    cases res with
    | error e => simp [h]
    | ok u => cases u; simp [h]

/-- C4: with the hardware restart succeeding, three consecutive faults from
a zero counter each return `Ok` (restarting the transfer) with the counter
at 1, 2, 3; the fourth returns `RetryLimitExceeded` with the counter reset
to zero — the starting state of a fresh fault window with its full
allowance of three retries. -/
theorem retry_cap_and_reset :
    handle_error_condition 0 true = (1, .ok ()) ∧
    handle_error_condition 1 true = (2, .ok ()) ∧
    handle_error_condition 2 true = (3, .ok ()) ∧
    handle_error_condition 3 true = (0, .error .RetryLimitExceeded) := by
  decide

/-! ### Morse encoder lemmas -/

/-- C7: the encoder emits decimal digits most-significant first, five
symbols per digit, separated by single spaces, suppressing leading zeros
but always emitting the final digit: the four example encodings of the
spec, including the trailing zeros of 100. -/
theorem code_encoder_examples :
    number_to_morse 0 100 = .ok "-----".toList ∧
    number_to_morse 5 100 = .ok ".....".toList ∧
    number_to_morse 123 100 = .ok ".---- ..--- ...--".toList ∧
    number_to_morse 100 100 = .ok ".---- ----- -----".toList := by
  refine ⟨?_, ?_, ?_, ?_⟩ <;> decide

theorem digit_to_morse_length (d : Nat) : (digit_to_morse d).length ≤ 5 := by
  unfold digit_to_morse
  split <;> decide

theorem BufferWriter.write_str_ok (s : List Char) :
    ∀ w : BufferWriter, w.written.length + s.length ≤ w.capacity →
      w.write_str s = .ok ⟨w.capacity, w.written ++ s⟩ := by
  induction s with
  | nil =>
    intro w h
    simp [BufferWriter.write_str]
  | cons b rest ih =>
    intro w h
    have hlt : ¬ w.written.length ≥ w.capacity := by
      simp only [List.length_cons] at h
      omega
    unfold BufferWriter.write_str BufferWriter.write_byte
    rw [if_neg hlt]
    have hih := ih ⟨w.capacity, w.written ++ [b]⟩ (by simp at h ⊢; omega)
    simp only [hih]
    simp [List.append_assoc]

/-- Each loop iteration writes at most six bytes (a separating space plus a
five-symbol digit), and only five for the first emitted digit; with enough
room the loop succeeds. -/
theorem morse_loop_ok (number : Nat) (divs : List Nat) :
    ∀ (first : Bool) (w : BufferWriter),
      w.written.length + (6 * divs.length - cond first 1 0) ≤ w.capacity →
      ∃ w2 : BufferWriter, morse_loop number divs first w = .ok w2 ∧
        w2.capacity = w.capacity ∧
        w2.written.length ≤
          w.written.length + (6 * divs.length - cond first 1 0) := by
  induction divs with
  | nil =>
    intro first w h
    exact ⟨w, rfl, rfl, by omega⟩
  | cons divisor rest ih =>
    intro first w h
    have hdm : (digit_to_morse ((number / divisor) % 10)).length ≤ 5 :=
      digit_to_morse_length _
    simp only [List.length_cons] at h
    cases first with
    | true =>
      simp only [Bool.cond_true] at h
      unfold morse_loop
      by_cases hc : ((number / divisor) % 10 ≠ 0 ∨ (true = false) ∨ divisor = 1)
      · rw [if_pos hc, if_neg (by simp)]
        have hws := BufferWriter.write_str_ok (digit_to_morse ((number / divisor) % 10)) w
          (by omega)
        simp only [hws]
        obtain ⟨w3, hrun, hcap, hlen⟩ := ih false
          ⟨w.capacity, w.written ++ digit_to_morse ((number / divisor) % 10)⟩
          (by simp; omega)
        refine ⟨w3, hrun, by simpa using hcap, ?_⟩
        simp only [Bool.cond_false, Bool.cond_true, Nat.sub_zero, List.length_append,
          List.length_cons] at hlen ⊢
        omega
      · rw [if_neg hc]
        obtain ⟨w3, hrun, hcap, hlen⟩ := ih true w (by simp only [Bool.cond_true]; omega)
        refine ⟨w3, hrun, hcap, ?_⟩
        simp only [Bool.cond_true, List.length_cons] at hlen ⊢
        omega
    | false =>
      simp only [Bool.cond_false, Nat.sub_zero] at h
      unfold morse_loop
      rw [if_pos (Or.inr (Or.inl rfl)), if_pos rfl]
      have hwb : w.write_byte ' ' = .ok ⟨w.capacity, w.written ++ [' ']⟩ := by
        unfold BufferWriter.write_byte
        rw [if_neg (by omega)]
      simp only [hwb]
      have hws := BufferWriter.write_str_ok (digit_to_morse ((number / divisor) % 10))
        ⟨w.capacity, w.written ++ [' ']⟩ (by simp; omega)
      simp only [hws]
      obtain ⟨w3, hrun, hcap, hlen⟩ := ih false
        ⟨w.capacity, (w.written ++ [' ']) ++ digit_to_morse ((number / divisor) % 10)⟩
        (by simp; omega)
      refine ⟨w3, hrun, by simpa using hcap, ?_⟩
      simp only [Bool.cond_false, Nat.sub_zero, List.length_append,
        List.length_singleton, List.length_cons, List.length_nil] at hlen ⊢
      omega

/-- C8: the encoder's length check can only trip when the output would
exceed the destination; for any input and a destination of at least 100
bytes (in particular every 16-bit input with the caller's 100-byte buffer)
the error branch is unreachable: the call returns `Ok` having written at
most 29 bytes (five 5-symbol digits plus four separators). -/
theorem number_to_morse_bounded (n buffer_len : Nat) (_hn : n < 2 ^ 16)
    (hb : 100 ≤ buffer_len) :
    ∃ out, number_to_morse n buffer_len = .ok out ∧ out.length ≤ 29 := by
  obtain ⟨w2, hrun, hcap, hlen⟩ := morse_loop_ok n morse_divisors true
    ⟨buffer_len, []⟩ (by simp [morse_divisors]; omega)
  unfold number_to_morse
  rw [hrun]
  refine ⟨w2.written, rfl, ?_⟩
  simpa [morse_divisors] using hlen

/-- Witness for C8 at the largest 16-bit input and the caller's 100-byte
buffer. -/
theorem number_to_morse_bounded_witness :
    (65535 : Nat) < 2 ^ 16 ∧ (100 : Nat) ≤ 100 ∧
      ∃ out, number_to_morse 65535 100 = .ok out ∧ out.length ≤ 29 :=
  ⟨by decide, by decide, number_to_morse_bounded 65535 100 (by decide) (by decide)⟩

/-! ### Annunciator lemmas -/

theorem process_idle_state_pres (led : RedLed) (t : Nat) :
    (process_idle_state led t).morse_sequence = none ∨
      (process_idle_state led t).morse_sequence = led.morse_sequence := by
  unfold process_idle_state
  split
  · exact Or.inl rfl
  · split
    · split
      · exact Or.inr rfl
      · split
        · exact Or.inr rfl
        · exact Or.inl rfl
    · exact Or.inr rfl

theorem process_signal_state_pres (led : RedLed) (elapsed : Nat) :
    (process_signal_state led elapsed).morse_sequence = none ∨
      (process_signal_state led elapsed).morse_sequence = led.morse_sequence := by
  unfold process_signal_state
  split
  · split
    · split
      · exact Or.inr rfl
      · exact Or.inr rfl
    · split
      · split
        · exact Or.inr rfl
        · exact Or.inr rfl
      · exact Or.inl rfl
  · exact Or.inl rfl

theorem process_pause_state_pres (led : RedLed) (elapsed t : Nat) :
    (process_pause_state led elapsed t).morse_sequence = none ∨
      (process_pause_state led elapsed t).morse_sequence = led.morse_sequence := by
  unfold process_pause_state
  split
  · split
    · split
      · exact Or.inr rfl
      · exact Or.inr rfl
    · split
      · split
        · exact Or.inr rfl
        · exact Or.inr rfl
      · exact Or.inl rfl
  · exact Or.inl rfl

theorem process_idle_state_reset (led : RedLed) (t : Nat)
    (hsome : led.morse_sequence ≠ none)
    (hres : (process_idle_state led t).morse_sequence = none) :
    led.morse_length ≤ led.morse_index ∨
      ∃ c, led.current_symbol = some c ∧ c ≠ '.' ∧ c ≠ '-' ∧ c ≠ ' ' := by
  unfold process_idle_state at hres
  split at hres
  · rename_i hend
    exact Or.inl (by omega)
  · split at hres
    · split at hres
      · exact absurd hres hsome
      · split at hres
        · exact absurd hres hsome
        · rename_i c heq hdot hsp
          exact Or.inr ⟨c, heq, fun h => hdot (Or.inl h), fun h => hdot (Or.inr h), hsp⟩
    · exact absurd hres hsome

theorem process_signal_state_reset (led : RedLed) (elapsed : Nat)
    (hsome : led.morse_sequence ≠ none)
    (hres : (process_signal_state led elapsed).morse_sequence = none) :
    led.current_symbol ≠ some '.' ∧ led.current_symbol ≠ some '-' := by
  unfold process_signal_state at hres
  split at hres
  · rename_i c heq
    split at hres
    · split at hres
      · exact absurd hres hsome
      · exact absurd hres hsome
    · split at hres
      · split at hres
        · exact absurd hres hsome
        · exact absurd hres hsome
      · rename_i hdot hdash
        rw [heq]
        exact ⟨by simp [hdot], by simp [hdash]⟩
  · rename_i heq
    rw [heq]
    exact ⟨by simp, by simp⟩

theorem process_pause_state_reset (led : RedLed) (elapsed t : Nat)
    (hsome : led.morse_sequence ≠ none)
    (hres : (process_pause_state led elapsed t).morse_sequence = none) :
    led.current_symbol ≠ some '.' ∧ led.current_symbol ≠ some '-' ∧
      led.current_symbol ≠ some ' ' := by
  unfold process_pause_state at hres
  split at hres
  · rename_i c heq
    split at hres
    · split at hres
      · exact absurd hres hsome
      · exact absurd hres hsome
    · split at hres
      · split at hres
        · exact absurd hres hsome
        · exact absurd hres hsome
      · rename_i hdot hsp
        rw [heq]
        refine ⟨?_, ?_, ?_⟩ <;> simp only [ne_eq, Option.some.injEq]
        · exact fun hx => hdot (Or.inl hx)
        · exact fun hx => hdot (Or.inr hx)
        · exact hsp
  · rename_i heq
    rw [heq]
    exact ⟨by simp, by simp, by simp⟩

/-- C9: a step of `update_red_led` taken with a sequence loaded never
touches the fault queue (a new code is dequeued only when `morse_sequence`
is `None`), keeps the very same sequence loaded if it keeps any, and drops
the sequence only once its index has passed the end or the current symbol
is invalid for the state — so a loaded code's pattern runs to completion
before any symbol of the next queued code can appear. -/
theorem annunciator_no_interleave (led : RedLed) (q : List Nat)
    (current_time buffer_len : Nat) (s : List Char)
    (h : led.morse_sequence = some s) :
    (update_red_led led q current_time buffer_len).2 = q ∧
    ((update_red_led led q current_time buffer_len).1.morse_sequence = none ∨
      (update_red_led led q current_time buffer_len).1.morse_sequence = some s) ∧
    ((update_red_led led q current_time buffer_len).1.morse_sequence = none →
      led.morse_length ≤ led.morse_index ∨ led.invalid_symbol_hit) := by
  have hsome : led.morse_sequence ≠ none := by rw [h]; simp
  have hupd : update_red_led led q current_time buffer_len =
      (handle_active_sequence led current_time, q) := by
    unfold update_red_led
    rw [h]
  rw [hupd]
  refine ⟨rfl, ?_, ?_⟩
  · have hpres : (handle_active_sequence led current_time).morse_sequence = none ∨
        (handle_active_sequence led current_time).morse_sequence = led.morse_sequence := by
      unfold handle_active_sequence
      split
      · exact process_idle_state_pres led current_time
      · exact process_signal_state_pres led _
      · exact process_pause_state_pres led _ current_time
    rcases hpres with hp | hp
    · exact Or.inl hp
    · exact Or.inr (hp.trans h)
  · intro hres
    unfold handle_active_sequence at hres
    simp only [] at hres
    unfold RedLed.invalid_symbol_hit
    split at hres
    · exact process_idle_state_reset led current_time hsome hres
    · exact Or.inr (process_signal_state_reset led _ hsome hres)
    · exact Or.inr (process_pause_state_reset led _ current_time hsome hres)

/-- Witness for C9 at a concrete annunciator state: a loaded one-symbol
sequence in `Idle` with codes 5 and 12 still queued. -/
theorem annunciator_no_interleave_witness :
    ({ ledOn := false, morse_sequence := some ['.'], morse_length := 1, morse_index := 0,
       morse_state := .Idle, last_toggle := 0 } : RedLed).morse_sequence = some ['.'] ∧
    ((update_red_led
        { ledOn := false, morse_sequence := some ['.'], morse_length := 1, morse_index := 0,
          morse_state := .Idle, last_toggle := 0 } [5, 12] 0 100).2 = [5, 12] ∧
     ((update_red_led
        { ledOn := false, morse_sequence := some ['.'], morse_length := 1, morse_index := 0,
          morse_state := .Idle, last_toggle := 0 } [5, 12] 0 100).1.morse_sequence = none ∨
      (update_red_led
        { ledOn := false, morse_sequence := some ['.'], morse_length := 1, morse_index := 0,
          morse_state := .Idle, last_toggle := 0 } [5, 12] 0 100).1.morse_sequence =
        some ['.']) ∧
     ((update_red_led
        { ledOn := false, morse_sequence := some ['.'], morse_length := 1, morse_index := 0,
          morse_state := .Idle, last_toggle := 0 } [5, 12] 0 100).1.morse_sequence = none →
      ({ ledOn := false, morse_sequence := some ['.'], morse_length := 1, morse_index := 0,
         morse_state := .Idle, last_toggle := 0 } : RedLed).morse_length ≤
        ({ ledOn := false, morse_sequence := some ['.'], morse_length := 1, morse_index := 0,
           morse_state := .Idle, last_toggle := 0 } : RedLed).morse_index ∨
      ({ ledOn := false, morse_sequence := some ['.'], morse_length := 1, morse_index := 0,
         morse_state := .Idle, last_toggle := 0 } : RedLed).invalid_symbol_hit)) :=
  ⟨rfl, annunciator_no_interleave _ [5, 12] 0 100 ['.'] rfl⟩

/-! ### USB bridge lemmas -/

theorem RingBuffer.toList_length (rb : RingBuffer) : rb.toList.length = rb.count := by
  unfold RingBuffer.toList
  rw [List.length_map, List.length_range]

/-- C1: draining a non-empty RX ring buffer stages
`n = min DATA_PACKET_SIZE count` bytes; if the endpoint accepts only
`w < n` of them, the function pushes the `n - w` unsent bytes back onto the
ring buffer's tail (behind whatever remained buffered) and returns `Ok w`,
reporting exactly the accepted bytes. -/
theorem partial_usb_write (usbWrite : List Nat → Except UsbError Nat) (rx : RingBuffer)
    (w : Nat) (hwf : rx.WF) (hne : rx.count ≠ 0)
    (hw : usbWrite (rx.toList.take (min DATA_PACKET_SIZE rx.count)) = .ok w)
    (hlt : w < min DATA_PACKET_SIZE rx.count) :
    (process_rx_buffer usbWrite rx).2 = .ok w ∧
    (process_rx_buffer usbWrite rx).1.toList =
      rx.toList.drop (min DATA_PACKET_SIZE rx.count) ++
        (rx.toList.take (min DATA_PACKET_SIZE rx.count)).drop w := by
  obtain ⟨hr, hc, hwp⟩ := hwf
  have hfst := rx.pop_fst DATA_PACKET_SIZE ⟨hr, hc, hwp⟩
  have htl := rx.pop_toList DATA_PACKET_SIZE ⟨hr, hc, hwp⟩
  have hcnt := rx.pop_count DATA_PACKET_SIZE
  have hwf2 := rx.pop_WF DATA_PACKET_SIZE ⟨hr, hc, hwp⟩
  set k := min DATA_PACKET_SIZE rx.count with hk
  have hkc : k ≤ rx.count := by omega
  have hdrop_len : ((rx.toList.take k).drop w).length = k - w := by
    rw [List.length_drop, List.length_take, rx.toList_length]
    omega
  have havail : ((rx.toList.take k).drop w).length ≤
      (rx.pop DATA_PACKET_SIZE).2.available_space := by
    unfold RingBuffer.available_space
    rw [hdrop_len, hcnt]
    omega
  unfold process_rx_buffer
  rw [if_neg (by simp [RingBuffer.is_empty, hne])]
  simp only [hfst, hw]
  have hlen2 : (rx.toList.take k).length = k := by
    rw [List.length_take, rx.toList_length]
    omega
  rw [hlen2, if_pos hlt]
  have hptl := RingBuffer.push_toList (rx.pop DATA_PACKET_SIZE).2
    ((rx.toList.take k).drop w) hwf2 havail
  obtain ⟨hp2, -, -, -⟩ := RingBuffer.push_ok (rx.pop DATA_PACKET_SIZE).2
    ((rx.toList.take k).drop w) havail
  simp only [hp2]
  exact ⟨by trivial, by rw [hptl, htl]⟩

set_option maxRecDepth 2000 in
/-- Witness for C1: 10 buffered bytes, an endpoint accepting only 6 of
them; 4 bytes are re-enqueued and the call reports 6. -/
theorem partial_usb_write_witness :
    ((RingBuffer.new.push (List.replicate 10 3)).1.WF ∧
      (RingBuffer.new.push (List.replicate 10 3)).1.count ≠ 0 ∧
      (fun _ : List Nat => (Except.ok 6 : Except UsbError Nat))
          ((RingBuffer.new.push (List.replicate 10 3)).1.toList.take
            (min DATA_PACKET_SIZE (RingBuffer.new.push (List.replicate 10 3)).1.count)) =
        .ok 6 ∧
      6 < min DATA_PACKET_SIZE (RingBuffer.new.push (List.replicate 10 3)).1.count) ∧
    (process_rx_buffer (fun _ => .ok 6) (RingBuffer.new.push (List.replicate 10 3)).1).2 =
      .ok 6 ∧
    (process_rx_buffer (fun _ => .ok 6)
        (RingBuffer.new.push (List.replicate 10 3)).1).1.toList =
      (RingBuffer.new.push (List.replicate 10 3)).1.toList.drop
          (min DATA_PACKET_SIZE (RingBuffer.new.push (List.replicate 10 3)).1.count) ++
        ((RingBuffer.new.push (List.replicate 10 3)).1.toList.take
          (min DATA_PACKET_SIZE (RingBuffer.new.push (List.replicate 10 3)).1.count)).drop 6 :=
  ⟨⟨by decide, by decide, rfl, by decide⟩,
    partial_usb_write (fun _ => .ok 6) (RingBuffer.new.push (List.replicate 10 3)).1 6
      (by decide) (by decide) rfl (by decide)⟩
